import Mathlib

/-!
Shallow embedding of the polymer-analyzer cross-document query engine:
the `AnalysisResult` search-root reduction and query surface
(`src/model/analysis-result.ts`), the inline-document source-location
remapper (`correctSourceLocation`), and the external-path classifier.
The `Document` transitive-query contract consumed by the engine is an
external collaborator and is modelled from the spec (§4.1) where noted.
-/

namespace Polymer

/-- A typed fact extracted from a document.  Import features
(`kind = "import"`) carry the resolved target document URL in `target`
(`none` when the import is unresolved).  `tag` stands for JS object
identity, so two features with equal kind and id can be distinct
objects. -/
structure Feature where
  kind : String
  id : String
  target : Option String := none
  tag : Nat := 0
deriving DecidableEq, Repr

/-- A diagnostic raised against a document.  `tag` stands for JS object
identity. -/
structure Warning where
  code : String
  message : String
  tag : Nat := 0
deriving DecidableEq, Repr

/-- Per-file container (external collaborator `model/document.ts`): the
URL, the document's own features (import edges included) and its own
warnings, all created at scan time and immutable afterwards. -/
structure Document where
  url : String
  features : List Feature
  warnings : List Warning
deriving DecidableEq, Repr

/-- One slot of the URL mapping: either a Document or a top-level
Warning (the two are mutually exclusive per URL). -/
inductive Entry where
  | doc (d : Document)
  | warn (w : Warning)
deriving DecidableEq, Repr

/-- The finished project mapping handed to the `AnalysisResult`
constructor: a `Map<string, Document|Warning>` in insertion order. -/
abbrev Project : Type := List (String × Entry)

/-- `Map.get`: the Document stored at `u`, if that slot holds one. -/
def lookupDoc (proj : Project) (u : String) : Option Document :=
  match proj.find? (fun p => p.1 == u) with
  | some (_, Entry.doc d) => some d
  | _ => none

/-- The Document values of the mapping, in insertion order
(`Array.from(results.values()).filter((r) => r instanceof Document)`). -/
def projDocs (proj : Project) : List Document :=
  proj.filterMap (fun p =>
    match p.2 with
    | Entry.doc d => some d
    | Entry.warn _ => none)

/-- The top-level Warning values of the mapping
(`Array.from(values()).filter((r) => !(r instanceof Document))`). -/
def projWarnings (proj : Project) : List Warning :=
  proj.filterMap (fun p =>
    match p.2 with
    | Entry.warn w => some w
    | Entry.doc _ => none)

/-- The resolved targets of a document's own (direct) import features. -/
def directImports (d : Document) : List String :=
  (d.features.filter (fun f => f.kind == "import")).filterMap (fun f => f.target)

/-- One import edge: the document stored at `u` has an import feature
whose `.document` back-reference resolves to the document at `v`. -/
def edgeRel (proj : Project) (u v : String) : Prop :=
  ∃ d, lookupDoc proj u = some d ∧ v ∈ directImports d

/-- Reachability via zero or more import edges. -/
def Reaches (proj : Project) (u v : String) : Prop :=
  Relation.ReflTransGen (edgeRel proj) u v

/-- One breadth step of the transitive import traversal: all the direct
targets imported by the documents among `l`. -/
def step (proj : Project) (l : List String) : List String :=
  (l.filterMap (lookupDoc proj)).flatMap directImports

/-- Fuel-bounded closure of `acc` under `step` (the visited set of the
cycle-safe transitive traversal of the Document contract). -/
def closure (proj : Project) : Nat → List String → List String
  | 0, acc => acc
  | n + 1, acc =>
    let fresh := ((step proj acc).filter (fun v => decide (v ∉ acc))).dedup
    if fresh.isEmpty then acc else closure proj n (acc ++ fresh)

/-- Every url that can ever be produced by `step`. -/
def univList (proj : Project) : List String :=
  (projDocs proj).flatMap directImports

/-- All urls reachable from the urls in `l`: the closure run with enough
fuel to stabilize. -/
def reachSet (proj : Project) (l : List String) : List String :=
  closure proj ((univList proj).length + 1) l

/-- Mapping well-formedness, Bool-valued per entry: a Document entry is
stored at its own URL. -/
def entryConsistentB (p : String × Entry) : Bool :=
  match p.2 with
  | Entry.doc d => d.url == p.1
  | Entry.warn _ => true

/-- Mapping well-formedness: URL keys are unique (it is a JS `Map`) and
every Document entry is stored at its own URL. -/
def WF (proj : Project) : Prop :=
  (proj.map Prod.fst).Nodup ∧ ∀ p ∈ proj, entryConsistentB p = true

/-- The import graph has no directed cycle: no document reaches itself
by following at least one import edge. -/
def Acyclic (proj : Project) : Prop :=
  ∀ d ∈ projDocs proj, d.url ∉ reachSet proj (directImports d)

instance (proj : Project) : Decidable (WF proj) := by
  unfold WF; infer_instance

instance (proj : Project) : Decidable (Acyclic proj) := by
  unfold Acyclic; infer_instance

theorem lookupDoc_mem {proj : Project} {u : String} {d : Document}
    (h : lookupDoc proj u = some d) : (u, Entry.doc d) ∈ proj := by
  unfold lookupDoc at h
  cases hf : proj.find? (fun p => p.1 == u) with
  | none => rw [hf] at h; exact absurd h (by simp)
  | some p =>
    rw [hf] at h
    have hmem := List.mem_of_find?_eq_some hf
    have hpred := List.find?_some hf
    obtain ⟨a, e⟩ := p
    have ha : a = u := by simpa using hpred
    cases e with
    | doc d' =>
      simp only [Option.some.injEq] at h
      subst h; subst ha; exact hmem
    | warn w => exact absurd h (by simp)

theorem mem_projDocs {proj : Project} {d : Document} :
    d ∈ projDocs proj ↔ ∃ u, (u, Entry.doc d) ∈ proj := by
  unfold projDocs
  rw [List.mem_filterMap]
  constructor
  · rintro ⟨⟨u, e⟩, hmem, he⟩
    cases e with
    | doc d' => simp only [Option.some.injEq] at he; subst he; exact ⟨u, hmem⟩
    | warn w => exact absurd he (by simp)
  · rintro ⟨u, hmem⟩
    exact ⟨(u, Entry.doc d), hmem, rfl⟩

theorem lookupDoc_mem_projDocs {proj : Project} {u : String} {d : Document}
    (h : lookupDoc proj u = some d) : d ∈ projDocs proj :=
  mem_projDocs.mpr ⟨u, lookupDoc_mem h⟩

theorem WF.url_eq {proj : Project} (hwf : WF proj) {u : String} {d : Document}
    (h : (u, Entry.doc d) ∈ proj) : d.url = u := by
  have := hwf.2 _ h
  simpa [entryConsistentB] using this

theorem lookupDoc_eq_some_of_mem :
    ∀ (proj : Project), (proj.map Prod.fst).Nodup → ∀ {u : String} {d : Document},
      (u, Entry.doc d) ∈ proj → lookupDoc proj u = some d := by
  intro proj
  induction proj with
  | nil => intro _ u d h; cases h
  | cons p rest ih =>
    intro hnd u d h
    obtain ⟨a, e⟩ := p
    by_cases hau : a = u
    · subst hau
      have hor : (a, Entry.doc d) = (a, e) ∨ (a, Entry.doc d) ∈ rest := by
        simpa using h
      cases hor with
      | inl heq =>
        have : e = Entry.doc d := by cases heq; rfl
        subst this
        unfold lookupDoc
        simp [List.find?]
      | inr htail =>
        exfalso
        simp only [List.map_cons, List.nodup_cons] at hnd
        exact hnd.1 (List.mem_map.mpr ⟨(a, Entry.doc d), htail, rfl⟩)
    · have htail : (u, Entry.doc d) ∈ rest := by
        rcases (by simpa using h : (u, Entry.doc d) = (a, e) ∨ (u, Entry.doc d) ∈ rest) with heq | ht
        · exfalso; apply hau; cases heq; rfl
        · exact ht
      have hnd' : (rest.map Prod.fst).Nodup := by
        simp only [List.map_cons, List.nodup_cons] at hnd
        exact hnd.2
      have hres := ih hnd' htail
      unfold lookupDoc at hres ⊢
      have hne : (a == u) = false := by simpa using hau
      simp only [List.find?, hne]
      exact hres

theorem WF.lookupDoc_eq_some {proj : Project} (hwf : WF proj) {u : String}
    {d : Document} (h : (u, Entry.doc d) ∈ proj) : lookupDoc proj u = some d :=
  lookupDoc_eq_some_of_mem proj hwf.1 h

theorem WF.lookupDoc_url {proj : Project} (hwf : WF proj) {u : String}
    {d : Document} (h : lookupDoc proj u = some d) : d.url = u :=
  hwf.url_eq (lookupDoc_mem h)

theorem WF.lookupDoc_self {proj : Project} (hwf : WF proj) {d : Document}
    (h : d ∈ projDocs proj) : lookupDoc proj d.url = some d := by
  obtain ⟨u, hmem⟩ := mem_projDocs.mp h
  have hu : d.url = u := hwf.url_eq hmem
  rw [hu]
  exact hwf.lookupDoc_eq_some hmem

theorem mem_step {proj : Project} {l : List String} {v : String} :
    v ∈ step proj l ↔ ∃ u ∈ l, edgeRel proj u v := by
  unfold step edgeRel
  simp only [List.mem_flatMap, List.mem_filterMap]
  constructor
  · rintro ⟨d, ⟨u, hu, hl⟩, hv⟩
    exact ⟨u, hu, d, hl, hv⟩
  · rintro ⟨u, hu, d, hl, hv⟩
    exact ⟨d, ⟨u, hu, hl⟩, hv⟩

theorem step_subset_univ {proj : Project} {l : List String} {v : String}
    (h : v ∈ step proj l) : v ∈ univList proj := by
  rcases mem_step.mp h with ⟨u, _, d, hl, hv⟩
  exact List.mem_flatMap.mpr ⟨d, lookupDoc_mem_projDocs hl, hv⟩

theorem subset_closure {proj : Project} :
    ∀ (n : Nat) (acc : List String), acc ⊆ closure proj n acc := by
  intro n
  induction n with
  | zero => intro acc; exact fun _ h => h
  | succ n ih =>
    intro acc
    unfold closure
    by_cases he :
        (((step proj acc).filter (fun v => decide (v ∉ acc))).dedup).isEmpty
    · simp only [he, if_true]; exact fun _ h => h
    · simp only [he, if_false]
      intro x hx
      exact ih (acc ++ _) (List.mem_append_left _ hx)

theorem mem_closure_sound {proj : Project} :
    ∀ (n : Nat) (acc : List String) (v : String), v ∈ closure proj n acc →
      ∃ u ∈ acc, Reaches proj u v := by
  intro n
  induction n with
  | zero =>
    intro acc v hv
    exact ⟨v, hv, Relation.ReflTransGen.refl⟩
  | succ n ih =>
    intro acc v hv
    unfold closure at hv
    by_cases he :
        (((step proj acc).filter (fun v => decide (v ∉ acc))).dedup).isEmpty
    · simp only [he, if_true] at hv
      exact ⟨v, hv, Relation.ReflTransGen.refl⟩
    · simp only [he, if_false] at hv
      rcases ih _ v hv with ⟨u, hu, hr⟩
      rcases List.mem_append.mp hu with hacc | hfresh
      · exact ⟨u, hacc, hr⟩
      · have hu' : u ∈ step proj acc := by
          have := List.mem_dedup.mp hfresh
          exact List.mem_of_mem_filter this
        rcases mem_step.mp hu' with ⟨w, hw, he'⟩
        exact ⟨w, hw, Relation.ReflTransGen.head he' hr⟩

theorem length_filter_notMem_lt {univ acc acc' : List String}
    (hsub : acc ⊆ acc') {x : String} (hxu : x ∈ univ) (hxa : x ∉ acc)
    (hxa' : x ∈ acc') :
    (univ.filter (fun v => decide (v ∉ acc'))).length <
      (univ.filter (fun v => decide (v ∉ acc))).length := by
  have heq : univ.filter (fun v => decide (v ∉ acc')) =
      (univ.filter (fun v => decide (v ∉ acc))).filter (fun v => decide (v ∉ acc')) := by
    rw [List.filter_filter]
    apply List.filter_congr
    intro v _
    by_cases hv : v ∈ acc'
    · simp [hv]
    · have : v ∉ acc := fun hm => hv (hsub hm)
      simp [hv, this]
  rw [heq]
  apply List.length_filter_lt_length_iff_exists.mpr
  refine ⟨x, List.mem_filter.mpr ⟨hxu, by simpa using hxa⟩, by simpa using hxa'⟩

theorem closure_closed {proj : Project} :
    ∀ (n : Nat) (acc : List String),
      ((univList proj).filter (fun v => decide (v ∉ acc))).length < n →
      ∀ v ∈ step proj (closure proj n acc), v ∈ closure proj n acc := by
  intro n
  induction n with
  | zero => intro acc hlt; omega
  | succ n ih =>
    intro acc hlt v hv
    unfold closure at hv ⊢
    by_cases he :
        (((step proj acc).filter (fun w => decide (w ∉ acc))).dedup).isEmpty
    · simp only [he, if_true] at hv ⊢
      by_contra hvacc
      have hvf : v ∈ ((step proj acc).filter (fun w => decide (w ∉ acc))).dedup :=
        List.mem_dedup.mpr (List.mem_filter.mpr ⟨hv, by simpa using hvacc⟩)
      rw [List.isEmpty_iff] at he
      rw [he] at hvf
      cases hvf
    · simp only [he, if_false] at hv ⊢
      apply ih _ _ v hv
      have hne : ((step proj acc).filter (fun w => decide (w ∉ acc))).dedup ≠ [] := by
        intro hnil; rw [← List.isEmpty_iff] at hnil; exact he hnil
      obtain ⟨x, hx⟩ := List.exists_mem_of_ne_nil _ hne
      have hxf := List.mem_dedup.mp hx
      have hxs : x ∈ step proj acc := List.mem_of_mem_filter hxf
      have hxna : x ∉ acc := by
        have := List.of_mem_filter hxf
        simpa using this
      calc ((univList proj).filter
              (fun w => decide (w ∉ acc ++ ((step proj acc).filter (fun w => decide (w ∉ acc))).dedup))).length
          < ((univList proj).filter (fun w => decide (w ∉ acc))).length := by
            apply length_filter_notMem_lt (List.subset_append_left _ _)
              (step_subset_univ hxs) hxna
            exact List.mem_append_right _ hx
        _ ≤ n := by omega

theorem mem_reachSet {proj : Project} {l : List String} {v : String} :
    v ∈ reachSet proj l ↔ ∃ u ∈ l, Reaches proj u v := by
  constructor
  · exact fun h => mem_closure_sound _ _ _ h
  · rintro ⟨u, hu, hr⟩
    unfold Reaches at hr
    induction hr with
    | refl => exact subset_closure _ _ hu
    | tail _ hstep ih =>
      rename_i b c _
      apply closure_closed _ _ _ _ (mem_step.mpr ⟨b, ih, hstep⟩)
      have := List.length_filter_le (fun w => decide (w ∉ l)) (univList proj)
      omega

theorem mem_reachSet_single {proj : Project} {u v : String} :
    v ∈ reachSet proj [u] ↔ Reaches proj u v := by
  rw [mem_reachSet]
  constructor
  · rintro ⟨w, hw, hr⟩
    rcases List.mem_singleton.mp hw with rfl
    exact hr
  · exact fun h => ⟨u, List.mem_singleton.mpr rfl, h⟩

/-- JS `Set.prototype.add`: append the element unless already present. -/
def setAdd {α : Type} [DecidableEq α] (s : List α) (a : α) : List α :=
  if a ∈ s then s else s ++ [a]

/-- `addAll(set1, set2)` from analysis-result.ts: add every element of
`set2` to `set1` in order. -/
def addAll {α : Type} [DecidableEq α] (s t : List α) : List α :=
  t.foldl setAdd s

/-- `new Set(list)`: insertion-ordered de-duplication keeping first
occurrences. -/
def newSetOf {α : Type} [DecidableEq α] (l : List α) : List α :=
  addAll [] l

theorem mem_addAll {α : Type} [DecidableEq α] :
    ∀ (t s : List α) (x : α), x ∈ addAll s t ↔ x ∈ s ∨ x ∈ t := by
  intro t
  induction t with
  | nil => intro s x; simp [addAll]
  | cons a rest ih =>
    intro s x
    have hstep : addAll s (a :: rest) = addAll (setAdd s a) rest := rfl
    rw [hstep, ih]
    unfold setAdd
    by_cases ha : a ∈ s
    · simp only [ha, if_true, List.mem_cons]
      constructor
      · rintro (h | h)
        · exact Or.inl h
        · exact Or.inr (Or.inr h)
      · rintro (h | h | h)
        · exact Or.inl h
        · exact Or.inl (h ▸ ha)
        · exact Or.inr h
    · simp only [ha, if_false, List.mem_append, List.mem_singleton, List.mem_cons]
      tauto

theorem mem_newSetOf {α : Type} [DecidableEq α] {l : List α} {x : α} :
    x ∈ newSetOf l ↔ x ∈ l := by
  unfold newSetOf
  rw [mem_addAll]
  simp

theorem addAll_eq_append {α : Type} [DecidableEq α] :
    ∀ (t s : List α), t.Nodup → (∀ x ∈ t, x ∉ s) → addAll s t = s ++ t := by
  intro t
  induction t with
  | nil => intro s _ _; simp [addAll]
  | cons a rest ih =>
    intro s hnd hdisj
    have hstep : addAll s (a :: rest) = addAll (setAdd s a) rest := rfl
    rw [hstep]
    have hna : a ∉ s := hdisj a (List.mem_cons_self a rest)
    unfold setAdd
    simp only [hna, if_false]
    rw [ih (s ++ [a]) (List.nodup_cons.mp hnd).2]
    · simp
    · intro x hx
      rw [List.mem_append, List.mem_singleton]
      rintro (hxs | rfl)
      · exact hdisj x (List.mem_cons_of_mem a hx) hxs
      · exact (List.nodup_cons.mp hnd).1 hx

theorem newSetOf_eq_self {α : Type} [DecidableEq α] {l : List α}
    (hnd : l.Nodup) : newSetOf l = l := by
  unfold newSetOf
  rw [addAll_eq_append l [] hnd (by intro x _ hx; cases hx)]
  simp

/-- Modelled from the spec (§4.1): the Document method
`getByKind('import', {imported: true})` lives in the external
collaborator `model/document.ts`; per its consumed contract it returns
the import features of every document reachable from `d` via import
edges, and each returned feature's `.document` back-reference is the
resolved target document.  `importTargetDocs` is the list of those
target documents — exactly the documents the constructor's reduction
loop deletes from the candidate set when it visits `d`. -/
def importTargetDocs (proj : Project) (d : Document) : List Document :=
  (step proj (reachSet proj [d.url])).filterMap (lookupDoc proj)

/-- The constructor's reduction loop (analysis-result.ts lines 61-69).
JS `for (const doc of potentialRoots)` yields, in insertion order, the
elements that have not been deleted by the time the iterator reaches
them; visiting `doc` deletes from the live set every `imprt.document`
of `doc.getByKind('import', {imported: true})` with
`imprt.document !== doc`. -/
def rootLoop (proj : Project) : List Document → List Document → List Document
  | [], cur => cur
  | d :: rest, cur =>
    if d ∈ cur then
      rootLoop proj rest
        (cur.filter (fun x => decide (x = d ∨ x ∉ importTargetDocs proj d)))
    else rootLoop proj rest cur

/-- The `AnalysisResult` constructor's `_searchRoots` computation: the
candidate set starts as `new Set(documents)` and is trimmed in place by
the reduction loop. -/
def computeSearchRoots (proj : Project) : List Document :=
  rootLoop proj (newSetOf (projDocs proj)) (newSetOf (projDocs proj))

theorem projDocs_nodup {proj : Project} (hwf : WF proj) :
    (projDocs proj).Nodup := by
  have hpw : proj.Pairwise (fun p q => p.1 ≠ q.1) := by
    have := hwf.1
    rwa [List.Nodup, List.pairwise_map] at this
  have hpw' : proj.Pairwise
      (fun p q => p.1 ≠ q.1 ∧ entryConsistentB p = true ∧ entryConsistentB q = true) := by
    refine List.Pairwise.imp_of_mem ?_ hpw
    intro a b ha hb hne
    exact ⟨hne, hwf.2 a ha, hwf.2 b hb⟩
  unfold projDocs
  refine List.Pairwise.filterMap _ ?_ hpw'
  rintro ⟨u, e⟩ ⟨u', e'⟩ ⟨hne, hc, hc'⟩ b hb b' hb'
  cases e with
  | warn w => exact absurd hb (by simp)
  | doc d =>
    cases e' with
    | warn w => exact absurd hb' (by simp)
    | doc d' =>
      have hbd : b = d := by simpa using hb.symm
      have hbd' : b' = d' := by simpa using hb'.symm
      subst hbd; subst hbd'
      intro heq
      apply hne
      have h1 : b.url = u := by simpa [entryConsistentB] using hc
      have h2 : b'.url = u' := by simpa [entryConsistentB] using hc'
      rw [← h1, ← h2, heq]

theorem rootLoop_subset {proj : Project} :
    ∀ (todo cur : List Document), rootLoop proj todo cur ⊆ cur := by
  intro todo
  induction todo with
  | nil => intro cur; exact fun _ h => h
  | cons d rest ih =>
    intro cur
    unfold rootLoop
    by_cases hd : d ∈ cur
    · simp only [hd, if_true]
      exact fun x hx => List.mem_of_mem_filter (ih _ hx)
    · simp only [hd, if_false]
      exact ih cur

theorem mem_importTargetDocs {proj : Project} {d x : Document} :
    x ∈ importTargetDocs proj d ↔
      ∃ w t, Reaches proj d.url w ∧ edgeRel proj w t ∧ lookupDoc proj t = some x := by
  unfold importTargetDocs
  rw [List.mem_filterMap]
  constructor
  · rintro ⟨t, ht, hl⟩
    rcases mem_step.mp ht with ⟨w, hw, he⟩
    exact ⟨w, t, mem_reachSet_single.mp hw, he, hl⟩
  · rintro ⟨w, t, hr, he, hl⟩
    exact ⟨t, mem_step.mpr ⟨w, mem_reachSet_single.mpr hr, he⟩, hl⟩

theorem reaches_of_mem_importTargetDocs {proj : Project} (hwf : WF proj)
    {d x : Document} (h : x ∈ importTargetDocs proj d) :
    Reaches proj d.url x.url := by
  rcases mem_importTargetDocs.mp h with ⟨w, t, hr, he, hl⟩
  have hx : x.url = t := hwf.lookupDoc_url hl
  rw [hx]
  exact Relation.ReflTransGen.tail hr he

theorem mem_importTargetDocs_of_importer {proj : Project} (hwf : WF proj)
    {d x y : Document} (hx : x ∈ projDocs proj) (hy : y ∈ projDocs proj)
    (himp : x.url ∈ directImports y) (hr : Reaches proj d.url y.url) :
    x ∈ importTargetDocs proj d :=
  mem_importTargetDocs.mpr
    ⟨y.url, x.url, hr, ⟨y, hwf.lookupDoc_self hy, himp⟩, hwf.lookupDoc_self hx⟩

theorem mem_rootLoop_of_no_deleter {proj : Project} :
    ∀ (todo cur : List Document) (x : Document), x ∈ cur →
      (∀ d ∈ todo, d ≠ x → x ∉ importTargetDocs proj d) →
      x ∈ rootLoop proj todo cur := by
  intro todo
  induction todo with
  | nil => intro cur x hx _; exact hx
  | cons d rest ih =>
    intro cur x hx hno
    unfold rootLoop
    by_cases hd : d ∈ cur
    · simp only [hd, if_true]
      apply ih _ x ?_ (fun d' hd' => hno d' (List.mem_cons_of_mem d hd'))
      apply List.mem_filter.mpr
      refine ⟨hx, ?_⟩
      rw [decide_eq_true_eq]
      by_cases hdx : d = x
      · exact Or.inl hdx.symm
      · exact Or.inr (hno d (List.mem_cons_self d rest) hdx)
    · simp only [hd, if_false]
      exact ih cur x hx (fun d' hd' => hno d' (List.mem_cons_of_mem d hd'))

theorem not_mem_rootLoop_of_target {proj : Project} :
    ∀ (todo cur : List Document) (d x : Document), d ∈ todo → d ∈ cur →
      (∀ d' ∈ todo, d' ≠ d → d ∉ importTargetDocs proj d') →
      x ∈ importTargetDocs proj d → x ≠ d →
      x ∉ rootLoop proj todo cur := by
  intro todo
  induction todo with
  | nil => intro cur d x hd; cases hd
  | cons e rest ih =>
    intro cur d x hd hdcur hno hxt hxd
    unfold rootLoop
    by_cases he : e ∈ cur
    · simp only [he, if_true]
      by_cases hed : e = d
      · subst hed
        intro hx
        have hx' := rootLoop_subset _ _ hx
        have := List.of_mem_filter hx'
        rw [decide_eq_true_eq] at this
        cases this with
        | inl h => exact hxd h
        | inr h => exact h hxt
      · have hdrest : d ∈ rest := by
          rcases List.mem_cons.mp hd with h | h
          · exact absurd h.symm hed
          · exact h
        apply ih _ d x hdrest ?_ ?_ hxt hxd
        · apply List.mem_filter.mpr
          refine ⟨hdcur, ?_⟩
          rw [decide_eq_true_eq]
          exact Or.inr (hno e (List.mem_cons_self e rest) hed)
        · exact fun d' hd' => hno d' (List.mem_cons_of_mem e hd')
    · simp only [he, if_false]
      have hed : e ≠ d := fun h => he (h ▸ hdcur)
      have hdrest : d ∈ rest := by
        rcases List.mem_cons.mp hd with h | h
        · exact absurd h.symm hed
        · exact h
      exact ih cur d x hdrest hdcur
        (fun d' hd' => hno d' (List.mem_cons_of_mem e hd')) hxt hxd

theorem rootLoop_reach_invariant {proj : Project} (hwf : WF proj) :
    ∀ (todo cur : List Document) (u : String),
      (∃ r ∈ cur, Reaches proj r.url u) →
      ∃ r ∈ rootLoop proj todo cur, Reaches proj r.url u := by
  intro todo
  induction todo with
  | nil => intro cur u h; exact h
  | cons d rest ih =>
    intro cur u h
    unfold rootLoop
    by_cases hd : d ∈ cur
    · simp only [hd, if_true]
      rcases h with ⟨r, hr, hru⟩
      by_cases hkeep : r = d ∨ r ∉ importTargetDocs proj d
      · exact ih _ u ⟨r, List.mem_filter.mpr ⟨hr, by rw [decide_eq_true_eq]; exact hkeep⟩, hru⟩
      · push_neg at hkeep
        have hdr : Reaches proj d.url r.url :=
          reaches_of_mem_importTargetDocs hwf hkeep.2
        refine ih _ u ⟨d, List.mem_filter.mpr ⟨hd, ?_⟩, hdr.trans hru⟩
        rw [decide_eq_true_eq]
        exact Or.inl rfl
    · simp only [hd, if_false]
      exact ih cur u h

/-- C1 (root-set soundness): in a well-formed finished mapping, every
Document of the project is reachable, via zero or more import edges,
from at least one member of the search-root set computed by the
`AnalysisResult` constructor.  The Document transitive import query is
modelled from the spec contract of §4.1. -/
theorem c1_root_set_soundness {proj : Project} (hwf : WF proj)
    {d : Document} (hd : d ∈ projDocs proj) :
    ∃ r ∈ computeSearchRoots proj, Reaches proj r.url d.url := by
  unfold computeSearchRoots
  apply rootLoop_reach_invariant hwf
  exact ⟨d, mem_newSetOf.mpr hd, Relation.ReflTransGen.refl⟩

/-- Example: a document at url "a" importing "b". -/
def docImportsB : Document := ⟨"a", [⟨"import", "b", some "b", 0⟩], []⟩

/-- Example: a document at url "b" importing "a". -/
def docImportsA : Document := ⟨"b", [⟨"import", "a", some "a", 0⟩], []⟩

/-- Example: a leaf document at url "b" with no imports. -/
def docLeafB : Document := ⟨"b", [], []⟩

/-- Example: a document at url "c" importing both "a" and "b". -/
def docImportsAB : Document :=
  ⟨"c", [⟨"import", "a", some "a", 0⟩, ⟨"import", "b", some "b", 1⟩], []⟩

/-- Example project: "a" imports "b", "b" is a leaf (acyclic chain). -/
def projChain : Project := [("a", Entry.doc docImportsB), ("b", Entry.doc docLeafB)]

/-- Example project: the two-document import cycle, "a" first. -/
def projCycleAB : Project := [("a", Entry.doc docImportsB), ("b", Entry.doc docImportsA)]

/-- The same two-document cycle mapping with the entries enumerated in
the opposite insertion order. -/
def projCycleBA : Project := [("b", Entry.doc docImportsA), ("a", Entry.doc docImportsB)]

/-- Example project: a two-document cycle plus an outside document "c"
that imports both cycle members. -/
def projCoveredCycle : Project :=
  [("c", Entry.doc docImportsAB), ("a", Entry.doc docImportsB), ("b", Entry.doc docImportsA)]

/-- Witness for C1 at the concrete two-document chain project. -/
theorem c1_root_set_soundness_witness :
    ∃ r ∈ computeSearchRoots projChain, Reaches projChain r.url docLeafB.url :=
  c1_root_set_soundness (by decide) (by decide)

/-- The project documents that no other document directly imports:
in-degree 0 in the import graph. -/
def indeg0Docs (proj : Project) : List Document :=
  (projDocs proj).filter (fun x =>
    decide (∀ y ∈ projDocs proj, y ≠ x → x.url ∉ directImports y))

theorem acyclic_no_cycle {proj : Project} (hwf : WF proj) (hacy : Acyclic proj)
    {u v : String} (he : edgeRel proj u v) (hr : Reaches proj v u) : False := by
  rcases he with ⟨d, hl, hv⟩
  have hd : d ∈ projDocs proj := lookupDoc_mem_projDocs hl
  have hu : d.url = u := hwf.lookupDoc_url hl
  apply hacy d hd
  apply mem_reachSet.mpr
  exact ⟨v, hv, by rw [hu]; exact hr⟩

theorem acyclic_no_self_import {proj : Project} (hwf : WF proj)
    (hacy : Acyclic proj) {x : Document} (hx : x ∈ projDocs proj)
    (h : x.url ∈ directImports x) : False :=
  acyclic_no_cycle hwf hacy ⟨x, hwf.lookupDoc_self hx, h⟩ Relation.ReflTransGen.refl

theorem indeg0_never_target {proj : Project} (hwf : WF proj) (hacy : Acyclic proj)
    {x : Document} (hx0 : x ∈ projDocs proj)
    (hind : ∀ y ∈ projDocs proj, y ≠ x → x.url ∉ directImports y) :
    ∀ d : Document, x ∉ importTargetDocs proj d := by
  intro d hmem
  rcases mem_importTargetDocs.mp hmem with ⟨w, t, hr, he, hl⟩
  rcases he with ⟨y, hly, hty⟩
  have ht : x.url = t := hwf.lookupDoc_url hl
  have hy : y ∈ projDocs proj := lookupDoc_mem_projDocs hly
  have himp : x.url ∈ directImports y := by rw [ht]; exact hty
  by_cases hyx : y = x
  · subst hyx
    exact acyclic_no_self_import hwf hacy hy himp
  · exact hind y hy hyx himp

/-- The set of project documents from which `y` is reachable. -/
def ancestors (proj : Project) (y : Document) : Finset Document :=
  (projDocs proj).toFinset.filter (fun z => y.url ∈ reachSet proj [z.url])

theorem self_mem_ancestors {proj : Project} {y : Document}
    (hy : y ∈ projDocs proj) : y ∈ ancestors proj y := by
  unfold ancestors
  apply Finset.mem_filter.mpr
  exact ⟨List.mem_toFinset.mpr hy, mem_reachSet_single.mpr Relation.ReflTransGen.refl⟩

theorem exists_indeg0_ancestor {proj : Project} (hwf : WF proj)
    (hacy : Acyclic proj) :
    ∀ (n : Nat) (y : Document), y ∈ projDocs proj → (ancestors proj y).card ≤ n →
      ∃ R ∈ indeg0Docs proj, Reaches proj R.url y.url := by
  intro n
  induction n with
  | zero =>
    intro y hy hcard
    exfalso
    have hpos := Finset.card_pos.mpr ⟨y, self_mem_ancestors hy⟩
    omega
  | succ n ih =>
    intro y hy hcard
    by_cases hind : ∀ z ∈ projDocs proj, z ≠ y → y.url ∉ directImports z
    · refine ⟨y, ?_, Relation.ReflTransGen.refl⟩
      unfold indeg0Docs
      exact List.mem_filter.mpr ⟨hy, by rw [decide_eq_true_eq]; exact hind⟩
    · push_neg at hind
      obtain ⟨z, hz, hzy, himp⟩ := hind
      have hedge : edgeRel proj z.url y.url := ⟨z, hwf.lookupDoc_self hz, himp⟩
      have hsub : ancestors proj z ⊆ ancestors proj y := by
        intro w hw
        unfold ancestors at hw ⊢
        rcases Finset.mem_filter.mp hw with ⟨hw1, hw2⟩
        apply Finset.mem_filter.mpr
        refine ⟨hw1, ?_⟩
        have hrz : Reaches proj w.url z.url := mem_reachSet_single.mp hw2
        exact mem_reachSet_single.mpr (Relation.ReflTransGen.tail hrz hedge)
      have hynotz : y ∉ ancestors proj z := by
        intro hmem
        unfold ancestors at hmem
        rcases Finset.mem_filter.mp hmem with ⟨_, h2⟩
        exact acyclic_no_cycle hwf hacy hedge (mem_reachSet_single.mp h2)
      have hss : ancestors proj z ⊂ ancestors proj y :=
        ⟨hsub, fun hsup => hynotz (hsup (self_mem_ancestors hy))⟩
      have hclt := Finset.card_lt_card hss
      obtain ⟨R, hR, hRz⟩ := ih z hz (by omega)
      exact ⟨R, hR, hRz.tail hedge⟩

theorem roots_mem_iff {proj : Project} (hwf : WF proj) (hacy : Acyclic proj)
    (x : Document) : x ∈ computeSearchRoots proj ↔ x ∈ indeg0Docs proj := by
  constructor
  · intro hx
    have hxdocs : x ∈ projDocs proj :=
      mem_newSetOf.mp (rootLoop_subset _ _ hx)
    by_contra hnind
    have hnall : ¬ ∀ y ∈ projDocs proj, y ≠ x → x.url ∉ directImports y := by
      intro hall
      apply hnind
      unfold indeg0Docs
      exact List.mem_filter.mpr ⟨hxdocs, by rw [decide_eq_true_eq]; exact hall⟩
    push_neg at hnall
    obtain ⟨y, hy, hyx, himp⟩ := hnall
    obtain ⟨R, hR, hRy⟩ :=
      exists_indeg0_ancestor hwf hacy (ancestors proj y).card y hy le_rfl
    have hRdocs : R ∈ projDocs proj := List.mem_of_mem_filter hR
    have hRind : ∀ y' ∈ projDocs proj, y' ≠ R → R.url ∉ directImports y' := by
      have := List.of_mem_filter hR
      rwa [decide_eq_true_eq] at this
    have hRnotarget := indeg0_never_target hwf hacy hRdocs hRind
    have hxtarget : x ∈ importTargetDocs proj R :=
      mem_importTargetDocs_of_importer hwf hxdocs hy himp hRy
    have hxR : x ≠ R := fun h => hnind (h ▸ hR)
    revert hx
    unfold computeSearchRoots
    apply not_mem_rootLoop_of_target _ _ R x
      (mem_newSetOf.mpr hRdocs) (mem_newSetOf.mpr hRdocs)
      (fun d' _ _ => hRnotarget d') hxtarget hxR
  · intro hx
    have hxdocs : x ∈ projDocs proj := List.mem_of_mem_filter hx
    have hxind : ∀ y ∈ projDocs proj, y ≠ x → x.url ∉ directImports y := by
      have := List.of_mem_filter hx
      rwa [decide_eq_true_eq] at this
    unfold computeSearchRoots
    apply mem_rootLoop_of_no_deleter
    · exact mem_newSetOf.mpr hxdocs
    · exact fun d _ _ => indeg0_never_target hwf hacy hxdocs hxind d

/-- C3 (root-set minimality under acyclic imports): when the import
graph is a DAG, the computed search-root set consists exactly of the
Documents with in-degree 0, i.e. those that are not the direct import
target of any other document. -/
theorem c3_root_set_minimality_dag {proj : Project} (hwf : WF proj)
    (hacy : Acyclic proj) (x : Document) :
    x ∈ computeSearchRoots proj ↔
      x ∈ projDocs proj ∧ ∀ y ∈ projDocs proj, y ≠ x → x.url ∉ directImports y := by
  rw [roots_mem_iff hwf hacy x]
  unfold indeg0Docs
  rw [List.mem_filter, decide_eq_true_eq]

/-- Witness for C3 at the concrete acyclic chain project: "a", which
imports "b", is a root, being imported by nobody. -/
theorem c3_root_set_minimality_dag_witness :
    docImportsB ∈ computeSearchRoots projChain ↔
      docImportsB ∈ projDocs projChain ∧
        ∀ y ∈ projDocs projChain, y ≠ docImportsB →
          docImportsB.url ∉ directImports y :=
  c3_root_set_minimality_dag (by decide) (by decide) docImportsB

/-- C2 counterexample: the two-document import cycle, enumerated in the
two possible insertion orders of the same mapping, produces different
search-root sets ("a" first keeps only "a"; "b" first keeps only "b").
The reduction of the constructor is therefore not order-independent. -/
theorem c2_order_independence_counterexample :
    projCycleAB.Perm projCycleBA ∧
      (computeSearchRoots projCycleAB).toFinset ≠
        (computeSearchRoots projCycleBA).toFinset := by
  constructor
  · decide
  · decide

theorem WF_perm {proj proj' : Project} (hwf : WF proj) (hp : proj.Perm proj') :
    WF proj' := by
  refine ⟨((hp.map Prod.fst).nodup_iff).mp hwf.1, ?_⟩
  intro p hpmem
  exact hwf.2 p (hp.mem_iff.mpr hpmem)

theorem lookupDoc_perm {proj proj' : Project} (hwf : WF proj)
    (hp : proj.Perm proj') (u : String) :
    lookupDoc proj u = lookupDoc proj' u := by
  have hnd' : (proj'.map Prod.fst).Nodup := ((hp.map Prod.fst).nodup_iff).mp hwf.1
  cases h : lookupDoc proj u with
  | some d =>
    have hmem : (u, Entry.doc d) ∈ proj' := hp.mem_iff.mp (lookupDoc_mem h)
    exact (lookupDoc_eq_some_of_mem proj' hnd' hmem).symm
  | none =>
    cases h' : lookupDoc proj' u with
    | none => rfl
    | some d =>
      have hmem : (u, Entry.doc d) ∈ proj := hp.mem_iff.mpr (lookupDoc_mem h')
      have hsome := lookupDoc_eq_some_of_mem proj hwf.1 hmem
      rw [h] at hsome
      cases hsome

theorem edgeRel_perm {proj proj' : Project} (hwf : WF proj)
    (hp : proj.Perm proj') {u v : String} :
    edgeRel proj u v ↔ edgeRel proj' u v := by
  unfold edgeRel
  rw [lookupDoc_perm hwf hp u]

theorem reaches_perm {proj proj' : Project} (hwf : WF proj)
    (hp : proj.Perm proj') {u v : String} :
    Reaches proj u v ↔ Reaches proj' u v := by
  unfold Reaches
  constructor
  · exact Relation.ReflTransGen.mono (fun a b h => (edgeRel_perm hwf hp).mp h)
  · exact Relation.ReflTransGen.mono (fun a b h => (edgeRel_perm hwf hp).mpr h)

theorem projDocs_perm {proj proj' : Project} (hp : proj.Perm proj') :
    (projDocs proj).Perm (projDocs proj') := hp.filterMap _

theorem acyclic_perm {proj proj' : Project} (hwf : WF proj)
    (hp : proj.Perm proj') (hacy : Acyclic proj) : Acyclic proj' := by
  intro d hd hmem
  apply hacy d ((projDocs_perm hp).mem_iff.mpr hd)
  rcases mem_reachSet.mp hmem with ⟨v, hv, hr⟩
  exact mem_reachSet.mpr ⟨v, hv, (reaches_perm hwf hp).mpr hr⟩

/-- C2 amended: for projects whose import graph is acyclic, the
search-root reduction is order-independent — enumerating the same
mapping in any other insertion order computes the same root set. -/
theorem c2_order_independence_acyclic {proj proj' : Project} (hwf : WF proj)
    (hp : proj.Perm proj') (hacy : Acyclic proj) (x : Document) :
    x ∈ computeSearchRoots proj ↔ x ∈ computeSearchRoots proj' := by
  rw [roots_mem_iff hwf hacy x,
    roots_mem_iff (WF_perm hwf hp) (acyclic_perm hwf hp hacy) x]
  unfold indeg0Docs
  rw [List.mem_filter, List.mem_filter, decide_eq_true_eq, decide_eq_true_eq]
  have hdp := projDocs_perm hp
  constructor
  · rintro ⟨hmem, hall⟩
    exact ⟨hdp.mem_iff.mp hmem, fun y hy => hall y (hdp.mem_iff.mpr hy)⟩
  · rintro ⟨hmem, hall⟩
    exact ⟨hdp.mem_iff.mpr hmem, fun y hy => hall y (hdp.mem_iff.mp hy)⟩

/-- The acyclic chain mapping enumerated in the opposite order. -/
def projChainRev : Project := [("b", Entry.doc docLeafB), ("a", Entry.doc docImportsB)]

/-- Witness for the amended C2 at the concrete acyclic chain project. -/
theorem c2_order_independence_acyclic_witness :
    docImportsB ∈ computeSearchRoots projChain ↔
      docImportsB ∈ computeSearchRoots projChainRev :=
  c2_order_independence_acyclic (by decide) (by decide) (by decide) docImportsB

theorem WF.url_inj {proj : Project} (hwf : WF proj) {x y : Document}
    (hx : x ∈ projDocs proj) (hy : y ∈ projDocs proj) (h : x.url = y.url) :
    x = y := by
  have h1 := hwf.lookupDoc_self hx
  have h2 := hwf.lookupDoc_self hy
  rw [h, h2] at h1
  exact (Option.some.injEq _ _).mp h1.symm

theorem mem_rootLoop_of_cur_deleters {proj : Project} :
    ∀ (todo cur : List Document) (s : Document), s ∈ cur →
      (∀ d ∈ todo, d ∈ cur → d ≠ s → s ∉ importTargetDocs proj d) →
      s ∈ rootLoop proj todo cur := by
  intro todo
  induction todo with
  | nil => intro cur s hs _; exact hs
  | cons d rest ih =>
    intro cur s hs hno
    unfold rootLoop
    by_cases hd : d ∈ cur
    · simp only [hd, if_true]
      by_cases hds : d = s
      · subst hds
        apply ih _ _
          (List.mem_filter.mpr ⟨hs, by rw [decide_eq_true_eq]; exact Or.inl rfl⟩)
        intro d' hd' hcur' hne
        exact hno d' (List.mem_cons_of_mem d hd') (List.mem_of_mem_filter hcur') hne
      · have hnot : s ∉ importTargetDocs proj d :=
          hno d (List.mem_cons_self d rest) hd hds
        apply ih _ _
          (List.mem_filter.mpr ⟨hs, by rw [decide_eq_true_eq]; exact Or.inr hnot⟩)
        intro d' hd' hcur' hne
        exact hno d' (List.mem_cons_of_mem d hd') (List.mem_of_mem_filter hcur') hne
    · simp only [hd, if_false]
      apply ih _ _ hs
      intro d' hd' hcur' hne
      exact hno d' (List.mem_cons_of_mem d hd') hcur' hne

theorem exists_cycle_root_aux {proj : Project} {S : List Document}
    (hF1 : ∀ s ∈ S, ∀ s' ∈ S, s' ≠ s → s' ∈ importTargetDocs proj s)
    (hH1 : ∀ d ∈ projDocs proj, d ∉ S → ∀ s ∈ S, s ∉ importTargetDocs proj d) :
    ∀ (todo : List Document), todo ⊆ projDocs proj → ∀ (cur : List Document),
      S ⊆ cur → (∃ s ∈ S, s ∈ todo) →
      ∃ s ∈ S, s ∈ rootLoop proj todo cur := by
  intro todo
  induction todo with
  | nil =>
    rintro _ cur _ ⟨s, _, hstodo⟩
    cases hstodo
  | cons d rest ih =>
    rintro htodo cur hScur ⟨s0, hs0S, hs0todo⟩
    have hrest : rest ⊆ projDocs proj :=
      fun x hx => htodo (List.mem_cons_of_mem d hx)
    unfold rootLoop
    by_cases hd : d ∈ cur
    · simp only [hd, if_true]
      by_cases hdS : d ∈ S
      · refine ⟨d, hdS, ?_⟩
        apply mem_rootLoop_of_cur_deleters
        · exact List.mem_filter.mpr ⟨hd, by rw [decide_eq_true_eq]; exact Or.inl rfl⟩
        · intro d' hd' hcur' hne
          have hkeep := List.of_mem_filter hcur'
          rw [decide_eq_true_eq] at hkeep
          have hd'notS : d' ∉ S := by
            intro hd'S
            rcases hkeep with heq | hnt
            · exact hne heq
            · exact hnt (hF1 d hdS d' hd'S hne)
          exact hH1 d' (hrest hd') hd'notS d hdS
      · have hScur' : S ⊆ cur.filter
            (fun x => decide (x = d ∨ x ∉ importTargetDocs proj d)) := by
          intro s hsS
          apply List.mem_filter.mpr
          refine ⟨hScur hsS, ?_⟩
          rw [decide_eq_true_eq]
          exact Or.inr (hH1 d (htodo (List.mem_cons_self d rest)) hdS s hsS)
        have hs0rest : s0 ∈ rest := by
          rcases List.mem_cons.mp hs0todo with heq | hmem
          · exact absurd (heq ▸ hs0S) hdS
          · exact hmem
        exact ih hrest _ hScur' ⟨s0, hs0S, hs0rest⟩
    · simp only [hd, if_false]
      have hs0rest : s0 ∈ rest := by
        rcases List.mem_cons.mp hs0todo with heq | hmem
        · exact absurd (hScur (heq ▸ hs0S)) (heq ▸ hd)
        · exact hmem
      exact ih hrest cur hScur ⟨s0, hs0S, hs0rest⟩

/-- C4 counterexample: in `projCoveredCycle`, documents "a" and "b" are
importing each other (a two-document cycle), yet neither remains in the
computed search-root set: the outside document "c", visited first,
transitively imports both and deletes them. -/
theorem c4_cycle_survival_counterexample :
    docImportsA.url ∈ directImports docImportsB ∧
      docImportsB.url ∈ directImports docImportsA ∧
      docImportsA ∈ projDocs projCoveredCycle ∧
      docImportsB ∈ projDocs projCoveredCycle ∧
      docImportsA ∉ computeSearchRoots projCoveredCycle ∧
      docImportsB ∉ computeSearchRoots projCoveredCycle := by
  decide

/-- C4 amended: for a set `S` of mutually-reaching cycle documents that
no document outside `S` transitively imports into, at least one member
of `S` survives in the computed search-root set; the self-import
tie-break (`imprt.document !== doc`) is what keeps the first-visited
member alive.  In particular the two-document project A↔B keeps one of
A, B. -/
theorem c4_cycle_survival_closed {proj : Project} (hwf : WF proj)
    {S : List Document} (hSdocs : ∀ s ∈ S, s ∈ projDocs proj) (hSne : S ≠ [])
    (hScyc : ∀ a ∈ S, ∀ b ∈ S, b.url ∈ reachSet proj [a.url])
    (hSclosed : ∀ d ∈ projDocs proj,
      (∃ s ∈ S, s.url ∈ reachSet proj [d.url]) → d ∈ S) :
    ∃ s ∈ S, s ∈ computeSearchRoots proj := by
  have hF1 : ∀ s ∈ S, ∀ s' ∈ S, s' ≠ s → s' ∈ importTargetDocs proj s := by
    intro s hs s' hs' hne
    have hr : Reaches proj s.url s'.url := mem_reachSet_single.mp (hScyc s hs s' hs')
    rcases Relation.ReflTransGen.cases_tail hr with heq | ⟨c, hrc, hedge⟩
    · exact absurd (hwf.url_inj (hSdocs s' hs') (hSdocs s hs) heq) hne
    · exact mem_importTargetDocs.mpr
        ⟨c, s'.url, hrc, hedge, hwf.lookupDoc_self (hSdocs s' hs')⟩
  have hH1 : ∀ d ∈ projDocs proj, d ∉ S → ∀ s ∈ S, s ∉ importTargetDocs proj d := by
    intro d hd hdS s hs hmem
    apply hdS
    apply hSclosed d hd
    exact ⟨s, hs,
      mem_reachSet_single.mpr (reaches_of_mem_importTargetDocs hwf hmem)⟩
  obtain ⟨s0, hs0⟩ := List.exists_mem_of_ne_nil S hSne
  unfold computeSearchRoots
  apply exists_cycle_root_aux hF1 hH1
  · exact fun x hx => mem_newSetOf.mp hx
  · exact fun s hs => mem_newSetOf.mpr (hSdocs s hs)
  · exact ⟨s0, hs0, mem_newSetOf.mpr (hSdocs s0 hs0)⟩

/-- Witness for the amended C4 at the concrete two-document cycle
project: one of the two cycle documents survives as a root. -/
theorem c4_cycle_survival_closed_witness :
    ∃ s ∈ [docImportsB, docImportsA], s ∈ computeSearchRoots projCycleAB :=
  c4_cycle_survival_closed (by decide) (by decide) (by decide) (by decide)
    (by decide)

/-- The `AnalysisResult` object: the stored URL mapping (`_results`) and
the computed search roots (`_searchRoots`). -/
structure AnalysisResult where
  results : Project
  searchRoots : List Document

/-- The `AnalysisResult` constructor: stores the mapping and computes
the search roots from it. -/
def AnalysisResult.ofResults (results : Project) : AnalysisResult :=
  ⟨results, computeSearchRoots results⟩

/-- Modelled from the spec (§4.1): `Document#getById(kind, identifier,
{imported: true})` lives in the external collaborator
`model/document.ts`; per its consumed contract it returns the features
with the given kind and identifier owned by any document reachable from
`d` via import edges, one contribution per reachable document,
de-duplicated by object identity. -/
def Document.getByIdT (proj : Project) (d : Document)
    (kind identifier : String) : List Feature :=
  newSetOf (((reachSet proj [d.url]).filterMap (lookupDoc proj)).flatMap
    (fun d' => d'.features.filter (fun f => f.kind == kind && f.id == identifier)))

/-- Modelled from the spec (§4.1): `Document#getWarnings({imported:
true})` — the warnings of every document reachable from `d` via import
edges, one contribution per reachable document. -/
def Document.getWarningsT (proj : Project) (d : Document) : List Warning :=
  newSetOf (((reachSet proj [d.url]).filterMap (lookupDoc proj)).flatMap
    (fun d' => d'.warnings))

/-- `AnalysisResult#getById`: a fresh Set accumulating, over every
search root, the root's transitive `getById` results. -/
def AnalysisResult.getById (a : AnalysisResult) (kind identifier : String) :
    List Feature :=
  a.searchRoots.foldl
    (fun acc d => addAll acc (Document.getByIdT a.results d kind identifier)) []

/-- `AnalysisResult#getOnlyAtId`: throws when more than one feature
matches, with the kind, identifier and count interpolated into the
message; otherwise `results.values().next().value || undefined` — a
Feature object is never falsy, so that is the first element of the set,
or undefined when the set is empty. -/
def AnalysisResult.getOnlyAtId (a : AnalysisResult) (kind identifier : String) :
    Except String (Option Feature) :=
  let results := a.getById kind identifier
  if results.length > 1 then
    Except.error ("Expected to find at most one " ++ kind ++ " with id " ++
      identifier ++ " but found " ++ toString results.length ++ ".")
  else
    Except.ok results.head?

/-- `AnalysisResult#getWarnings`: a Set seeded with the mapping values
that are not Documents, extended with every search root's transitive
warnings, materialized to an array. -/
def AnalysisResult.getWarnings (a : AnalysisResult) : List Warning :=
  a.searchRoots.foldl
    (fun acc d => addAll acc (Document.getWarningsT a.results d))
    (newSetOf (projWarnings a.results))

theorem nodup_setAdd {α : Type} [DecidableEq α] {s : List α} (a : α)
    (h : s.Nodup) : (setAdd s a).Nodup := by
  unfold setAdd
  by_cases ha : a ∈ s
  · simpa [ha] using h
  · simp only [ha, if_false]
    rw [List.nodup_append]
    exact ⟨h, List.nodup_singleton a, by simpa using ha⟩

theorem nodup_addAll {α : Type} [DecidableEq α] :
    ∀ (t s : List α), s.Nodup → (addAll s t).Nodup := by
  intro t
  induction t with
  | nil => intro s h; exact h
  | cons a rest ih =>
    intro s h
    exact ih (setAdd s a) (nodup_setAdd a h)

theorem nodup_newSetOf {α : Type} [DecidableEq α] (l : List α) :
    (newSetOf l).Nodup :=
  nodup_addAll l [] List.nodup_nil

theorem mem_foldl_addAll {α β : Type} [DecidableEq β] (f : α → List β) :
    ∀ (l : List α) (init : List β) (x : β),
      x ∈ l.foldl (fun acc d => addAll acc (f d)) init ↔
        x ∈ init ∨ ∃ d ∈ l, x ∈ f d := by
  intro l
  induction l with
  | nil => intro init x; simp
  | cons d rest ih =>
    intro init x
    have hstep : (d :: rest).foldl (fun acc e => addAll acc (f e)) init =
        rest.foldl (fun acc e => addAll acc (f e)) (addAll init (f d)) := rfl
    rw [hstep, ih, mem_addAll]
    simp only [List.mem_cons]
    constructor
    · rintro ((h | h) | ⟨e, he, hx⟩)
      · exact Or.inl h
      · exact Or.inr ⟨d, Or.inl rfl, h⟩
      · exact Or.inr ⟨e, Or.inr he, hx⟩
    · rintro (h | ⟨e, (rfl | he), hx⟩)
      · exact Or.inl (Or.inl h)
      · exact Or.inl (Or.inr hx)
      · exact Or.inr ⟨e, he, hx⟩

theorem nodup_foldl_addAll {α β : Type} [DecidableEq β] (f : α → List β) :
    ∀ (l : List α) (init : List β), init.Nodup →
      (l.foldl (fun acc d => addAll acc (f d)) init).Nodup := by
  intro l
  induction l with
  | nil => intro init h; exact h
  | cons d rest ih =>
    intro init h
    exact ih (addAll init (f d)) (nodup_addAll (f d) init h)

/-- C5 (getOnlyAtId uniqueness enforcement): `getOnlyAtId` raises the
multiple-results error — whose message reports the kind, the identifier
and the count found — exactly when `getById` yields more than one
feature; it returns undefined on zero matches and the single feature on
exactly one match. -/
theorem c5_getOnlyAtId_uniqueness (a : AnalysisResult)
    (kind identifier : String) :
    (a.getById kind identifier = [] →
      a.getOnlyAtId kind identifier = Except.ok none) ∧
    (∀ f, a.getById kind identifier = [f] →
      a.getOnlyAtId kind identifier = Except.ok (some f)) ∧
    (1 < (a.getById kind identifier).length →
      a.getOnlyAtId kind identifier =
        Except.error ("Expected to find at most one " ++ kind ++ " with id " ++
          identifier ++ " but found " ++
          toString (a.getById kind identifier).length ++ ".")) := by
  refine ⟨?_, ?_, ?_⟩
  · intro h
    unfold AnalysisResult.getOnlyAtId
    simp [h]
  · intro f h
    unfold AnalysisResult.getOnlyAtId
    simp [h]
  · intro h
    unfold AnalysisResult.getOnlyAtId
    simp only [gt_iff_lt, h, if_true]

/-- Example: a document whose only feature is an element "x-foo". -/
def docElemX1 : Document := ⟨"e1", [⟨"element", "x-foo", none, 1⟩], []⟩

/-- Example: a second document with its own element "x-foo". -/
def docElemX2 : Document := ⟨"e2", [⟨"element", "x-foo", none, 2⟩], []⟩

/-- Example project: two unrelated documents both defining "x-foo". -/
def projTwoElems : Project :=
  [("e1", Entry.doc docElemX1), ("e2", Entry.doc docElemX2)]

/-- Witness for C5: with two matching features, `getOnlyAtId` reports
the error carrying kind, identifier and count. -/
theorem c5_getOnlyAtId_uniqueness_witness :
    (AnalysisResult.ofResults projTwoElems).getOnlyAtId "element" "x-foo" =
      Except.error
        "Expected to find at most one element with id x-foo but found 2." :=
  (c5_getOnlyAtId_uniqueness (AnalysisResult.ofResults projTwoElems)
    "element" "x-foo").2.2 (by decide)

/-- C6 (getWarnings aggregation): `getWarnings` returns exactly the
de-duplicated union of the mapping's top-level Warnings (URL slots that
hold no Document) and the transitive per-document warnings of every
search root; the returned sequence contains no duplicates.  A top-level
Warning occupies a non-Document slot and so contributes to no Feature
query in the model. -/
theorem c6_getWarnings_aggregation (proj : Project) :
    ((AnalysisResult.ofResults proj).getWarnings).toFinset =
      (projWarnings proj).toFinset ∪
        ((AnalysisResult.ofResults proj).searchRoots.flatMap
          (fun d => Document.getWarningsT proj d)).toFinset ∧
    ((AnalysisResult.ofResults proj).getWarnings).Nodup := by
  constructor
  · ext w
    simp only [List.mem_toFinset, Finset.mem_union, List.mem_flatMap]
    unfold AnalysisResult.getWarnings AnalysisResult.ofResults
    rw [mem_foldl_addAll, mem_newSetOf]
  · unfold AnalysisResult.getWarnings AnalysisResult.ofResults
    exact nodup_foldl_addAll _ _ _ (nodup_newSetOf _)

/-- A source location (elements-format.ts): zero-based line and column
indices, optionally the url of the source file. -/
structure SourceLocation where
  line : Nat
  column : Nat
  file : Option String := none
deriving DecidableEq, Repr

/-- The location offset of an inline document within its containing
document (inline-document part of the source): zero-based line and
column of the embedded document's origin, optionally a filename. -/
structure LocationOffset where
  line : Nat
  col : Nat
  filename : Option String := none
deriving DecidableEq, Repr

/-- JS disjunction `a || b` over optional strings: an absent value and
the empty string are both falsy. -/
def jsOrString (a b : Option String) : Option String :=
  match a with
  | some s => if s = "" then b else some s
  | none => b

/-- Embedded from `correctSourceLocation`: remaps a location expressed
in an embedded document's own coordinate space to the containing
document's space, passing the input through unchanged when either
argument is absent.  The `file` field is assigned only when
`locationOffset.filename != null || sourceLocation.file != null`, and
then to `locationOffset.filename || sourceLocation.file` (JS
truthiness: an empty-string offset filename falls through to the inner
file). -/
def correctSourceLocation (sourceLocation : Option SourceLocation)
    (locationOffset : Option LocationOffset) : Option SourceLocation :=
  match locationOffset, sourceLocation with
  | none, _ => sourceLocation
  | some _, none => sourceLocation
  | some off, some loc =>
    some { line := loc.line + off.line,
           column := loc.column + (if loc.line = 0 then off.col else 0),
           file := if off.filename.isSome || loc.file.isSome then
               jsOrString off.filename loc.file
             else none }

/-- C7 (location remapping rule): with both arguments present, the
result's line is the inner line plus the offset line, and the column
offset is applied exactly when the inner location lies on line 0 of the
embedded document (later lines keep their column unchanged). -/
theorem c7_location_remapping_rule (loc : SourceLocation)
    (off : LocationOffset) :
    ∃ r, correctSourceLocation (some loc) (some off) = some r ∧
      r.line = loc.line + off.line ∧
      r.column = loc.column + (if loc.line = 0 then off.col else 0) :=
  ⟨_, rfl, rfl, rfl⟩

/-- C8 (pass-through): with an absent offset the input location — be it
present or absent — is returned unchanged, filename included. -/
theorem c8_location_pass_through (loc : Option SourceLocation) :
    correctSourceLocation loc none = loc := by
  cases loc <;> rfl

/-- C9 counterexample: the offset `{line:3, col:4, filename:""}` does
specify a (present, empty) filename, yet remapping `{line:1, column:2}`
(which carries no filename) yields a location that carries no filename
— the code tests JS truthiness, not presence, so the claimed iff and
offset preference fail at this input. -/
theorem c9_filename_propagation_counterexample :
    (Option.isSome (some "") = true) ∧
    correctSourceLocation (some ⟨1, 2, none⟩) (some ⟨3, 4, some ""⟩) =
      some ⟨4, 2, none⟩ ∧
    correctSourceLocation (some ⟨1, 2, some "x"⟩) (some ⟨3, 4, some ""⟩) =
      some ⟨4, 2, some "x"⟩ := by
  refine ⟨rfl, rfl, ?_⟩
  rfl

/-- C9 amended (filename propagation under JS truthiness): the result
carries a filename exactly when the offset specifies a non-empty
filename or the inner location already carries one; the result's
filename is the offset's when that is non-empty, and the inner one
otherwise. -/
theorem c9_filename_propagation_truthy (loc : SourceLocation)
    (off : LocationOffset) :
    ∃ r, correctSourceLocation (some loc) (some off) = some r ∧
      r.file = (if off.filename ≠ none ∧ off.filename ≠ some "" then
          off.filename
        else loc.file) ∧
      (r.file.isSome ↔
        ((off.filename ≠ none ∧ off.filename ≠ some "") ∨ loc.file ≠ none)) := by
  refine ⟨_, rfl, ?_, ?_⟩
  · rcases hof : off.filename with _ | f
    · rcases hlf : loc.file with _ | g <;>
        simp [correctSourceLocation, jsOrString, hof, hlf]
    · by_cases hf : f = ""
      · subst hf
        rcases hlf : loc.file with _ | g <;>
          simp [correctSourceLocation, jsOrString, hof, hlf]
      · simp [correctSourceLocation, jsOrString, hof, hf]
  · rcases hof : off.filename with _ | f
    · rcases hlf : loc.file with _ | g <;>
        simp [correctSourceLocation, jsOrString, hof, hlf]
    · by_cases hf : f = ""
      · subst hf
        rcases hlf : loc.file with _ | g <;>
          simp [correctSourceLocation, jsOrString, hof, hlf]
      · simp [correctSourceLocation, jsOrString, hof, hf]

theorem isPrefixOf_iff_exists :
    ∀ (l r : List Char), l.isPrefixOf r = true ↔ ∃ t, r = l ++ t := by
  intro l
  induction l with
  | nil =>
    intro r
    simp [List.isPrefixOf]
  | cons a as ih =>
    intro r
    cases r with
    | nil =>
      simp [List.isPrefixOf]
    | cons b bs =>
      simp only [List.isPrefixOf, Bool.and_eq_true, beq_iff_eq]
      rw [ih bs]
      constructor
      · rintro ⟨rfl, t, rfl⟩
        exact ⟨t, rfl⟩
      · rintro ⟨t, ht⟩
        injection ht with h1 h2
        exact ⟨h1.symm, t, h2⟩

/-- One position of the MATCHES_EXTERNAL regular expression
`(^|\/)(bower_components|node_modules|build($|\/))`: the alternatives
tried with their left end anchored at the head of `s`. -/
def extAlternativeAt (s : List Char) : Bool :=
  "bower_components".toList.isPrefixOf s ||
  "node_modules".toList.isPrefixOf s ||
  ("build".toList.isPrefixOf s &&
    ((s.drop 5).isEmpty || (s.drop 5).head? == some '/'))

/-- Scan of the non-start anchor alternative: a match beginning right
after some '/' of the string. -/
def matchExternalAfterSlash : List Char → Bool
  | [] => false
  | c :: rest => (c == '/' && extAlternativeAt rest) || matchExternalAfterSlash rest

/-- `AnalysisResult.isExternal(path)` — `MATCHES_EXTERNAL.test(path)`:
some position at the string start or right after a '/' matches one of
the three alternatives. -/
def isExternal (path : String) : Bool :=
  extAlternativeAt path.toList || matchExternalAfterSlash path.toList

/-- The spec's reading of one matching position: the remainder of the
path starts with a component prefixed by `bower_components` or
`node_modules`, or with a component exactly named `build` (followed by
the end of the path or a '/'). -/
def ExtAlternative (r : List Char) : Prop :=
  (∃ t, r = "bower_components".toList ++ t) ∨
  (∃ t, r = "node_modules".toList ++ t) ∨
  (∃ rest, r = "build".toList ++ rest ∧ (rest = [] ∨ ∃ t, rest = '/' :: t))

/-- The spec's reading of the whole external-path test: some
decomposition of the path at a path boundary — the start of the string
or a position right after a '/' — exposes one of the alternatives. -/
def SpecExternal (path : String) : Prop :=
  ∃ l r : List Char, path.toList = l ++ r ∧
    (l = [] ∨ ∃ l', l = l' ++ ['/']) ∧ ExtAlternative r

theorem extAlternativeAt_iff (r : List Char) :
    extAlternativeAt r = true ↔ ExtAlternative r := by
  unfold extAlternativeAt ExtAlternative
  simp only [Bool.or_eq_true, Bool.and_eq_true]
  rw [isPrefixOf_iff_exists, isPrefixOf_iff_exists, isPrefixOf_iff_exists]
  have h5 : ("build".toList).length = 5 := rfl
  constructor
  · rintro ((h | h) | ⟨⟨t, rfl⟩, hb⟩)
    · exact Or.inl h
    · exact Or.inr (Or.inl h)
    · refine Or.inr (Or.inr ⟨t, rfl, ?_⟩)
      have hdrop : (("build".toList) ++ t).drop 5 = t := by
        rw [← h5, List.drop_left]
      rw [hdrop] at hb
      rcases hb with he | hh
      · exact Or.inl (List.isEmpty_iff.mp he)
      · cases t with
        | nil => exact absurd hh (by decide)
        | cons c cs =>
          rw [beq_iff_eq] at hh
          simp only [List.head?_cons, Option.some.injEq] at hh
          exact Or.inr ⟨cs, by rw [hh]⟩
  · rintro (h | h | ⟨rest, rfl, hre⟩)
    · exact Or.inl (Or.inl h)
    · exact Or.inl (Or.inr h)
    · refine Or.inr ⟨⟨rest, rfl⟩, ?_⟩
      have hdrop : (("build".toList) ++ rest).drop 5 = rest := by
        rw [← h5, List.drop_left]
      rw [hdrop]
      rcases hre with rfl | ⟨t, rfl⟩
      · simp
      · simp

theorem matchExternalAfterSlash_iff :
    ∀ (cs : List Char), matchExternalAfterSlash cs = true ↔
      ∃ l r, cs = l ++ Char.ofNat 47 :: r ∧ extAlternativeAt r = true := by
  intro cs
  induction cs with
  | nil =>
    simp only [matchExternalAfterSlash]
    constructor
    · intro h; cases h
    · rintro ⟨l, r, h, _⟩
      exact absurd h (by simp)
  | cons c rest ih =>
    simp only [matchExternalAfterSlash, Bool.or_eq_true, Bool.and_eq_true,
      beq_iff_eq]
    rw [ih]
    constructor
    · rintro (⟨rfl, hr⟩ | ⟨l, r, rfl, hr⟩)
      · exact ⟨[], rest, rfl, hr⟩
      · exact ⟨c :: l, r, rfl, hr⟩
    · rintro ⟨l, r, heq, hr⟩
      cases l with
      | nil =>
        simp only [List.nil_append] at heq
        injection heq with h1 h2
        exact Or.inl ⟨h1, h2 ▸ hr⟩
      | cons a l2 =>
        injection heq with h1 h2
        exact Or.inr ⟨l2, r, h2, hr⟩

/-- C10 (isExternal classification): the regular-expression test holds
exactly when some path-boundary-anchored component is `bower_components`
or `node_modules` as a left-anchored prefix, or exactly `build`; and the
four concrete classifications named by the spec hold. -/
theorem c10_isExternal_classification :
    (∀ path : String, isExternal path = true ↔ SpecExternal path) ∧
    isExternal "node_modules/foo/bar.js" = true ∧
    isExternal "bower_components-extra/x.js" = true ∧
    isExternal "build/out.js" = true ∧
    isExternal "src/build-tools/x.js" = false := by
  refine ⟨?_, by decide, by decide, by decide, by decide⟩
  intro path
  unfold isExternal SpecExternal
  rw [Bool.or_eq_true, matchExternalAfterSlash_iff, extAlternativeAt_iff]
  constructor
  · rintro (h | ⟨l, r, heq, hr⟩)
    · exact ⟨[], path.toList, rfl, Or.inl rfl, h⟩
    · refine ⟨l ++ [Char.ofNat 47], r, ?_, Or.inr ⟨l, rfl⟩,
        (extAlternativeAt_iff r).mp hr⟩
      rw [heq, List.append_assoc, List.singleton_append]
  · rintro ⟨l, r, heq, hb, halt⟩
    rcases hb with rfl | ⟨l2, rfl⟩
    · left
      rw [List.nil_append] at heq
      exact heq ▸ halt
    · right
      refine ⟨l2, r, ?_, (extAlternativeAt_iff r).mpr halt⟩
      rw [heq, List.append_assoc, List.singleton_append]

end Polymer
